import Mathlib

/-!
Verification of the IntegerList module (crates/primitives/src/integer_list.rs):
a facade over an Elias-Fano encoding of a non-empty, non-decreasing sequence of
machine integers.  The wrapper code (constructors, byte round trip, the
intersection merge, the structured-encoding adapter) is translated from the
source file.  The underlying codec (sucds EliasFano: build, iteration,
serialize/deserialize) is an external dependency whose code is not in the
repository; it is modelled from the specification, section 4.2, as noted on
each such definition.
-/

/-- Boolean check that a list of naturals is non-decreasing (the sortedness
validation the codec's build step performs). -/
def isNonDecreasing : List Nat → Bool
  | [] => true
  | [_] => true
  | a :: b :: rest => decide (a ≤ b) && isNonDecreasing (b :: rest)

/-- Fuel-driven floor of the base-2 logarithm; structural recursion so the
kernel can evaluate it.  Agrees with Nat.log2 when the fuel is at least the
argument. -/
def log2Fuel : Nat → Nat → Nat
  | 0, _ => 0
  | fuel + 1, n => if 2 ≤ n then log2Fuel fuel (n / 2) + 1 else 0

/-- Floor of the base-2 logarithm, `max 0 (floor (log2 n))` with `log2 0 = 0`. -/
def log2floor (n : Nat) : Nat := log2Fuel n n

/-- Unary encoding of a non-decreasing stream of high parts: for each element
emit (high - previous high) zero bits followed by one set bit; the previous
high starts at 0 (spec, section 4.2, Codec::build). -/
def unaryEncode : Nat → List Nat → List Bool
  | _, [] => []
  | prev, h :: rest => List.replicate (h - prev) false ++ true :: unaryEncode h rest

/-- Modelled from the spec: the Codec data model (spec, section 3).  `count` =
number of stored integers; `max_value` = largest stored integer; `low_width` =
number of low bits per element; `low_array` = the low parts in original order;
`high_bits` = the unary-encoded high parts. -/
structure EliasFano where
  count : Nat
  max_value : Nat
  low_width : Nat
  low_array : List Nat
  high_bits : List Bool
  deriving DecidableEq, Repr

/-- Low width chosen by the build step: `floor (log2 (U / n))`, which is 0 when
`n > U` (spec, section 4.2). -/
def efLowWidth (values : List Nat) : Nat :=
  log2floor (values.getLastD 0 / values.length)

/-- Modelled from the spec: the successful result of Codec::build (spec,
section 4.2): `n = len(values)`, `U = values[n-1]`, each element is split into
`high = v >> low_width` and `low = v mod 2^low_width`; lows are collected in
order and highs are unary-encoded. -/
def efBuild (values : List Nat) : EliasFano :=
  ⟨values.length, values.getLastD 0, efLowWidth values,
   values.map fun v => v % 2 ^ efLowWidth values,
   unaryEncode 0 (values.map fun v => v / 2 ^ efLowWidth values)⟩

/-- Modelled from the spec: sucds EliasFano::from_ints / Codec::build (spec,
section 4.2): fails when the sequence is empty or not non-decreasing,
otherwise produces the high/low split. -/
def EliasFano.from_ints (values : List Nat) : Option EliasFano :=
  if values.isEmpty || !isNonDecreasing values then none
  else some (efBuild values)

/-- Decoding walk over the high bit stream: a zero bit increments the current
high value, a set bit emits it (the inverse of the unary encoding). -/
def decodeHigh : List Bool → Nat → List Nat
  | [], _ => []
  | false :: rest, h => decodeHigh rest (h + 1)
  | true :: rest, h => h :: decodeHigh rest h

/-- Modelled from the spec: the full decoded sequence of a Codec, reading each
element as `(high << low_width) | low` (spec, section 4.2, get/iter). -/
def EliasFano.iterAll (ef : EliasFano) : List Nat :=
  List.zipWith (fun h l => h * 2 ^ ef.low_width + l) (decodeHigh ef.high_bits 0) ef.low_array

/-- Modelled from the spec: Codec::iter(start) — the lazy ascending sequence of
decoded values beginning at index `start` (spec, section 4.2). -/
def EliasFano.iter (ef : EliasFano) (start : Nat) : List Nat :=
  ef.iterAll.drop start

/-- Modelled from the spec: Codec length accessor, the number of stored
integers. -/
def EliasFano.len (ef : EliasFano) : Nat := ef.count

/-- Value of a little-endian bit string. -/
def bitsVal : List Bool → Nat
  | [] => 0
  | b :: rest => (cond b 1 0) + 2 * bitsVal rest

/-- The `k` low bits of `n`, least significant first. -/
def natToBits : Nat → Nat → List Bool
  | 0, _ => []
  | k + 1, n => decide (n % 2 = 1) :: natToBits k (n / 2)

/-- Packs a bit string into bytes, 8 bits per byte, least significant bit
first, the final partial byte zero-padded. -/
def bitsToBytes (bs : List Bool) : List Nat :=
  (List.range ((bs.length + 7) / 8)).map fun i => bitsVal ((bs.drop (8 * i)).take 8)

/-- The 8 bits of one byte, least significant first. -/
def byteToBits (n : Nat) : List Bool := natToBits 8 n

/-- Unpacks a byte string into its bit string. -/
def bytesToBits (bytes : List Nat) : List Bool := (bytes.map byteToBits).flatten

/-- A natural written as `k` little-endian bytes (truncating above `256^k`). -/
def natToLEBytes : Nat → Nat → List Nat
  | 0, _ => []
  | k + 1, v => v % 256 :: natToLEBytes k (v / 256)

/-- Value of a little-endian byte string. -/
def leBytesToNat : List Nat → Nat
  | [] => 0
  | b :: rest => b + 256 * leBytesToNat rest

/-- The packed low-part bit stream of a Codec: each low part written as
`low_width` bits in element order. -/
def EliasFano.lowBits (ef : EliasFano) : List Bool :=
  (ef.low_array.map (natToBits ef.low_width)).flatten

/-- Modelled from the spec: Codec::serialize_into (spec, section 4.2): a fixed
header (count, max value, low width, and the byte lengths of the two packed
arrays, each as 8 little-endian bytes) followed by the packed low array and
then the raw high bit storage. -/
def EliasFano.serializeInto (ef : EliasFano) : List Nat :=
  let lowBytes := bitsToBytes ef.lowBits
  let highBytes := bitsToBytes ef.high_bits
  natToLEBytes 8 ef.count ++ natToLEBytes 8 ef.max_value ++ natToLEBytes 8 ef.low_width ++
    natToLEBytes 8 lowBytes.length ++ natToLEBytes 8 highBytes.length ++ lowBytes ++ highBytes

/-- Modelled from the spec: Codec::deserialize_from (spec, section 4.2):
validates the header (non-zero count, array lengths consistent with the header
fields, enough bytes present) and rebuilds the low array and the high bit
stream; any failure yields `none`. -/
def EliasFano.deserializeFrom (data : List Nat) : Option EliasFano :=
  if data.length < 40 then none else
  let count := leBytesToNat (data.take 8)
  let maxv := leBytesToNat ((data.drop 8).take 8)
  let lw := leBytesToNat ((data.drop 16).take 8)
  let lowLen := leBytesToNat ((data.drop 24).take 8)
  let highLen := leBytesToNat ((data.drop 32).take 8)
  if count = 0 then none else
  let nLowBits := count * lw
  let nHighBits := count + maxv / 2 ^ lw
  if lowLen ≠ (nLowBits + 7) / 8 then none else
  if highLen ≠ (nHighBits + 7) / 8 then none else
  if data.length < 40 + lowLen + highLen then none else
  let lowBits := (bytesToBits ((data.drop 40).take lowLen)).take nLowBits
  some ⟨count, maxv, lw,
        (List.range count).map fun i => bitsVal ((lowBits.drop (i * lw)).take lw),
        (bytesToBits ((data.drop (40 + lowLen)).take highLen)).take nHighBits⟩

/-- The error type of the primitives crate (integer_list.rs, EliasFanoError). -/
inductive EliasFanoError where
  | InvalidInput
  | FailedDeserialize
  deriving DecidableEq, Repr

/-- IntegerList: the facade wrapping exactly one EliasFano codec
(integer_list.rs, line 12). -/
structure IntegerList where
  ef : EliasFano
  deriving DecidableEq, Repr

/-- IntegerList::new (integer_list.rs, lines 36-38): builds from a list,
mapping a codec build failure to InvalidInput. -/
def IntegerList.new (list : List Nat) : Except EliasFanoError IntegerList :=
  match EliasFano.from_ints list with
  | some ef => .ok ⟨ef⟩
  | none => .error .InvalidInput

/-- IntegerList::new_pre_sorted (integer_list.rs, lines 46-51): builds from a
list the caller promises is sorted and non-empty; `none` models the panic
taken when the promise is broken. -/
def IntegerList.new_pre_sorted (list : List Nat) : Option IntegerList :=
  (EliasFano.from_ints list).map IntegerList.mk

/-- IntegerList::to_bytes (integer_list.rs, lines 54-58): forwards to the
codec's serializer. -/
def IntegerList.to_bytes (x : IntegerList) : List Nat :=
  x.ef.serializeInto

/-- IntegerList::from_bytes (integer_list.rs, lines 69-71): forwards to the
codec's deserializer, mapping failure to FailedDeserialize. -/
def IntegerList.from_bytes (data : List Nat) : Except EliasFanoError IntegerList :=
  match EliasFano.deserializeFrom data with
  | some ef => .ok ⟨ef⟩
  | none => .error .FailedDeserialize

/-- Fuel-driven dual-pointer lockstep merge, translated from the loop of
IntegerList::intersection (integer_list.rs, lines 79-95): equal heads emit the
value and advance both sides; a smaller self head advances self only; a
smaller other head advances other only; the merge stops when either side is
exhausted.  Structural recursion on the fuel so the kernel can evaluate it. -/
def intersectMergeFuel : Nat → List Nat → List Nat → List Nat
  | 0, _, _ => []
  | _ + 1, [], _ => []
  | _ + 1, _ :: _, [] => []
  | fuel + 1, a :: xs, b :: ys =>
    if a = b then a :: intersectMergeFuel fuel xs ys
    else if a < b then intersectMergeFuel fuel xs (b :: ys)
    else intersectMergeFuel fuel (a :: xs) ys

/-- The lockstep merge with enough fuel to run to completion (each step
consumes at least one element). -/
def intersectMerge (l1 l2 : List Nat) : List Nat :=
  intersectMergeFuel (l1.length + l2.length) l1 l2

/-- IntegerList::intersection (integer_list.rs, lines 76-102): merges the two
decoded streams; an empty result is `none`, otherwise the accumulated values
are rebuilt through the trusting constructor. -/
def IntegerList.intersection (x y : IntegerList) : Option IntegerList :=
  let result := intersectMerge (x.ef.iter 0) (y.ef.iter 0)
  if result.isEmpty then none
  else IntegerList.new_pre_sorted result

/-- Serialize for IntegerList (integer_list.rs, lines 120-132): the logical
form handed to a structured encoder is the decoded ascending sequence
collected from iter(0). -/
def IntegerList.serde_serialize (x : IntegerList) : List Nat :=
  x.ef.iter 0

/-- Deserialize for IntegerList via IntegerListVisitor (integer_list.rs, lines
134-162): collects the sequence elements and feeds them to IntegerList::new;
a build failure becomes a decode error (`none`). -/
def IntegerList.serde_deserialize (l : List Nat) : Option IntegerList :=
  match IntegerList.new l with
  | .ok x => some x
  | .error _ => none

/-- Modelled from the spec: the derived Default for IntegerList (integer_list.rs,
line 11) defaults the inner codec, whose derived default is all fields
empty/zero. -/
def IntegerList.default : IntegerList := ⟨⟨0, 0, 0, [], []⟩⟩

/-- Helper pairing two trusted builds so the worked intersection examples can
be stated as closed equations. -/
def interEx (s t : List Nat) : Option (Option IntegerList) :=
  match IntegerList.new_pre_sorted s, IntegerList.new_pre_sorted t with
  | some a, some b => some (a.intersection b)
  | _, _ => none

/-! ### Basic lemmas -/

lemma isNonDecreasing_iff_sorted (l : List Nat) :
    isNonDecreasing l = true ↔ l.Sorted (· ≤ ·) := by
  induction l with
  | nil => simp [isNonDecreasing]
  | cons a t ih =>
    cases t with
    | nil => simp [isNonDecreasing]
    | cons b t2 =>
      rw [isNonDecreasing, Bool.and_eq_true, decide_eq_true_eq, ih, List.sorted_cons_cons]

lemma from_ints_eq_some (S : List Nat) (ef : EliasFano) :
    EliasFano.from_ints S = some ef ↔
      S ≠ [] ∧ isNonDecreasing S = true ∧ ef = efBuild S := by
  unfold EliasFano.from_ints
  by_cases hc : S.isEmpty || !isNonDecreasing S
  · rw [if_pos hc]
    simp only [Bool.or_eq_true, List.isEmpty_iff, Bool.not_eq_true'] at hc
    constructor
    · intro h; cases h
    · rintro ⟨hne, hsort, -⟩
      rcases hc with h | h
      · exact absurd h hne
      · rw [hsort] at h; cases h
  · rw [if_neg hc]
    simp only [Bool.or_eq_true, List.isEmpty_iff, Bool.not_eq_true', not_or,
      Bool.not_eq_false] at hc
    constructor
    · intro h
      exact ⟨hc.1, hc.2, (Option.some.inj h).symm⟩
    · rintro ⟨-, -, rfl⟩; rfl

lemma decodeHigh_replicate (k : Nat) (rest : List Bool) (h : Nat) :
    decodeHigh (List.replicate k false ++ rest) h = decodeHigh rest (h + k) := by
  induction k generalizing h with
  | zero => simp
  | succ k ih =>
    rw [List.replicate_succ, List.cons_append, decodeHigh, ih]
    congr 1
    omega

lemma decodeHigh_unaryEncode (hs : List Nat) (prev : Nat)
    (hsorted : hs.Sorted (· ≤ ·)) (hge : ∀ x ∈ hs, prev ≤ x) :
    decodeHigh (unaryEncode prev hs) prev = hs := by
  induction hs generalizing prev with
  | nil => rfl
  | cons h t ih =>
    have hph : prev ≤ h := hge h (List.mem_cons_self h t)
    rw [unaryEncode, decodeHigh_replicate]
    have heq : prev + (h - prev) = h := by omega
    rw [heq, decodeHigh, ih h hsorted.of_cons (List.rel_of_sorted_cons hsorted)]

lemma zipWith_map_same {α β γ δ : Type} (f : α → β) (g : α → γ) (comb : β → γ → δ)
    (l : List α) :
    List.zipWith comb (l.map f) (l.map g) = l.map fun v => comb (f v) (g v) := by
  induction l with
  | nil => rfl
  | cons a t ih => simp [ih]

lemma efBuild_iterAll (S : List Nat) (hs : S.Sorted (· ≤ ·)) :
    (efBuild S).iterAll = S := by
  unfold efBuild EliasFano.iterAll
  simp only
  rw [decodeHigh_unaryEncode _ 0
        (List.Pairwise.map _ (fun a b hab => Nat.div_le_div_right hab) hs)
        (fun x _ => Nat.zero_le x),
      zipWith_map_same]
  have : ∀ v ∈ S, v / 2 ^ efLowWidth S * 2 ^ efLowWidth S + v % 2 ^ efLowWidth S = v := by
    intro v _
    rw [Nat.mul_comm]
    exact Nat.div_add_mod v _
  calc S.map (fun v => v / 2 ^ efLowWidth S * 2 ^ efLowWidth S + v % 2 ^ efLowWidth S)
      = S.map id := List.map_congr_left this
    _ = S := List.map_id S

lemma from_ints_iterAll (S : List Nat) (ef : EliasFano)
    (h : EliasFano.from_ints S = some ef) : ef.iterAll = S := by
  obtain ⟨-, hsort, rfl⟩ := (from_ints_eq_some S ef).1 h
  exact efBuild_iterAll S ((isNonDecreasing_iff_sorted S).1 hsort)

lemma iter_zero (ef : EliasFano) : ef.iter 0 = ef.iterAll := by
  simp [EliasFano.iter]

/-! ### Lemmas about the lockstep merge -/

lemma mem_intersectMergeFuel (f : Nat) (l1 l2 : List Nat) (x : Nat)
    (h : x ∈ intersectMergeFuel f l1 l2) : x ∈ l1 := by
  induction f generalizing l1 l2 with
  | zero => simp [intersectMergeFuel] at h
  | succ f ih =>
    cases l1 with
    | nil => simp [intersectMergeFuel] at h
    | cons a xs =>
      cases l2 with
      | nil => simp [intersectMergeFuel] at h
      | cons b ys =>
        rw [intersectMergeFuel] at h
        by_cases hab : a = b
        · rw [if_pos hab] at h
          rcases List.mem_cons.1 h with rfl | h
          · exact List.mem_cons_self _ _
          · exact List.mem_cons_of_mem a (ih xs ys h)
        · rw [if_neg hab] at h
          by_cases hlt : a < b
          · rw [if_pos hlt] at h
            exact List.mem_cons_of_mem a (ih xs (b :: ys) h)
          · rw [if_neg hlt] at h
            exact ih (a :: xs) ys h

lemma sorted_intersectMergeFuel (f : Nat) (l1 l2 : List Nat)
    (h1 : l1.Sorted (· ≤ ·)) :
    (intersectMergeFuel f l1 l2).Sorted (· ≤ ·) := by
  induction f generalizing l1 l2 with
  | zero => simp [intersectMergeFuel]
  | succ f ih =>
    cases l1 with
    | nil => simp [intersectMergeFuel]
    | cons a xs =>
      cases l2 with
      | nil => simp [intersectMergeFuel]
      | cons b ys =>
        rw [intersectMergeFuel]
        by_cases hab : a = b
        · rw [if_pos hab]
          refine List.sorted_cons.2 ⟨?_, ih xs ys h1.of_cons⟩
          intro x hx
          exact List.rel_of_sorted_cons h1 x (mem_intersectMergeFuel f xs ys x hx)
        · rw [if_neg hab]
          by_cases hlt : a < b
          · rw [if_pos hlt]
            exact ih xs (b :: ys) h1.of_cons
          · rw [if_neg hlt]
            exact ih (a :: xs) ys h1

lemma intersectMergeFuel_comm (f : Nat) (l1 l2 : List Nat)
    (h : l1.length + l2.length ≤ f) :
    intersectMergeFuel f l1 l2 = intersectMergeFuel f l2 l1 := by
  induction f generalizing l1 l2 with
  | zero => rfl
  | succ f ih =>
    cases l1 with
    | nil =>
      cases l2 with
      | nil => rfl
      | cons b ys => rfl
    | cons a xs =>
      cases l2 with
      | nil => rfl
      | cons b ys =>
        simp only [List.length_cons] at h
        rw [intersectMergeFuel, intersectMergeFuel]
        by_cases hab : a = b
        · subst hab
          rw [if_pos rfl, if_pos rfl]
          congr 1
          exact ih xs ys (by omega)
        · rw [if_neg hab, if_neg (Ne.symm hab)]
          by_cases hlt : a < b
          · rw [if_pos hlt, if_neg (by omega : ¬ b < a)]
            exact ih xs (b :: ys) (by simp only [List.length_cons]; omega)
          · have hbl : b < a := by omega
            rw [if_neg hlt, if_pos hbl]
            exact ih (a :: xs) ys (by simp only [List.length_cons]; omega)

lemma mem_intersectMerge (l1 l2 : List Nat) (x : Nat)
    (h : x ∈ intersectMerge l1 l2) : x ∈ l1 :=
  mem_intersectMergeFuel _ l1 l2 x h

lemma sorted_intersectMerge (l1 l2 : List Nat) (h1 : l1.Sorted (· ≤ ·)) :
    (intersectMerge l1 l2).Sorted (· ≤ ·) :=
  sorted_intersectMergeFuel _ l1 l2 h1

lemma intersectMerge_comm (l1 l2 : List Nat) :
    intersectMerge l1 l2 = intersectMerge l2 l1 := by
  unfold intersectMerge
  rw [intersectMergeFuel_comm (l1.length + l2.length) l1 l2 (Nat.le_refl _),
    Nat.add_comm l1.length l2.length]

lemma intersection_eq (x y : IntegerList) :
    x.intersection y =
      if intersectMerge x.ef.iterAll y.ef.iterAll = [] then none
      else IntegerList.new_pre_sorted (intersectMerge x.ef.iterAll y.ef.iterAll) := by
  by_cases h : intersectMerge x.ef.iterAll y.ef.iterAll = []
  · simp [IntegerList.intersection, iter_zero, h]
  · simp [IntegerList.intersection, iter_zero, h]

/-! ### Claim theorems -/

/-- C5: for every IntegerList built from a valid input sequence S, iterating
from index 0 yields exactly the values of S in their original order. -/
theorem iter_zero_decodes_original (S : List Nat) (ef : EliasFano)
    (h : EliasFano.from_ints S = some ef) : ef.iter 0 = S := by
  rw [iter_zero]
  exact from_ints_iterAll S ef h

/-- Witness for C5 at the concrete sequence [1, 2, 3]. -/
theorem iter_zero_decodes_original_witness :
    EliasFano.from_ints [1, 2, 3] = some (efBuild [1, 2, 3]) ∧
      (efBuild [1, 2, 3]).iter 0 = [1, 2, 3] :=
  ⟨by decide, iter_zero_decodes_original [1, 2, 3] (efBuild [1, 2, 3]) (by decide)⟩

/-- C3: the validating constructor returns the recoverable InvalidInput error
on every empty or non-sorted input (and never panics: its embedding is total),
and returns Ok on every non-empty non-decreasing input. -/
theorem new_validates (S : List Nat) :
    (S = [] ∨ ¬ S.Sorted (· ≤ ·) → IntegerList.new S = .error .InvalidInput) ∧
    (S ≠ [] → S.Sorted (· ≤ ·) → ∃ l, IntegerList.new S = .ok l) := by
  constructor
  · intro hbad
    have hnone : EliasFano.from_ints S = none := by
      unfold EliasFano.from_ints
      rw [if_pos]
      simp only [Bool.or_eq_true, List.isEmpty_iff, Bool.not_eq_true']
      rcases hbad with rfl | hns
      · exact Or.inl rfl
      · right
        cases hb : isNonDecreasing S with
        | false => rfl
        | true => exact absurd ((isNonDecreasing_iff_sorted S).1 hb) hns
    simp [IntegerList.new, hnone]
  · intro hne hsort
    refine ⟨⟨efBuild S⟩, ?_⟩
    have hsome := (from_ints_eq_some S (efBuild S)).2
      ⟨hne, (isNonDecreasing_iff_sorted S).2 hsort, rfl⟩
    simp [IntegerList.new, hsome]

/-- Witness for C3: a descending input is rejected, a valid one accepted. -/
theorem new_validates_witness :
    IntegerList.new [3, 2] = .error .InvalidInput ∧
      ∃ l, IntegerList.new [1, 2, 3] = .ok l :=
  ⟨(new_validates [3, 2]).1 (Or.inr (by decide)),
   (new_validates [1, 2, 3]).2 (by decide) (by decide)⟩

/-- C6: the trusting constructor panics (modelled as `none`) exactly on empty
or non-sorted input, and on valid input returns the same list as `new`. -/
theorem new_pre_sorted_contract (S : List Nat) :
    (S = [] ∨ ¬ S.Sorted (· ≤ ·) → IntegerList.new_pre_sorted S = none) ∧
    (S ≠ [] → S.Sorted (· ≤ ·) →
      ∃ l, IntegerList.new_pre_sorted S = some l ∧ IntegerList.new S = .ok l) := by
  constructor
  · intro hbad
    have hnone : EliasFano.from_ints S = none := by
      unfold EliasFano.from_ints
      rw [if_pos]
      simp only [Bool.or_eq_true, List.isEmpty_iff, Bool.not_eq_true']
      rcases hbad with rfl | hns
      · exact Or.inl rfl
      · right
        cases hb : isNonDecreasing S with
        | false => rfl
        | true => exact absurd ((isNonDecreasing_iff_sorted S).1 hb) hns
    simp [IntegerList.new_pre_sorted, hnone]
  · intro hne hsort
    have hsome := (from_ints_eq_some S (efBuild S)).2
      ⟨hne, (isNonDecreasing_iff_sorted S).2 hsort, rfl⟩
    exact ⟨⟨efBuild S⟩, by simp [IntegerList.new_pre_sorted, hsome],
      by simp [IntegerList.new, hsome]⟩

/-- Witness for C6: panic on a descending input, agreement with new on a valid
one. -/
theorem new_pre_sorted_contract_witness :
    IntegerList.new_pre_sorted [2, 1] = none ∧
      ∃ l, IntegerList.new_pre_sorted [5, 7] = some l ∧ IntegerList.new [5, 7] = .ok l :=
  ⟨(new_pre_sorted_contract [2, 1]).1 (Or.inr (by decide)),
   (new_pre_sorted_contract [5, 7]).2 (by decide) (by decide)⟩

/-- C9: the derived Default produces the empty list: iterating yields no
values and its length is 0, although the validating constructor rejects empty
input. -/
theorem default_is_empty :
    IntegerList.default.ef.iter 0 = [] ∧ IntegerList.default.ef.len = 0 ∧
      IntegerList.new [] = .error .InvalidInput :=
  ⟨rfl, rfl, rfl⟩

/-- C8: serialization is deterministic: to_bytes is a pure function, and two
lists built from identical input sequences serialize to identical bytes. -/
theorem to_bytes_deterministic :
    (∀ x : IntegerList, x.to_bytes = x.to_bytes) ∧
    ∀ (S : List Nat) (a b : IntegerList),
      IntegerList.new S = .ok a → IntegerList.new S = .ok b →
        a.to_bytes = b.to_bytes := by
  refine ⟨fun _ => rfl, fun S a b h1 h2 => ?_⟩
  rw [h1] at h2
  cases h2
  rfl

/-- Witness for C8 at the concrete sequence [1, 2, 3]. -/
theorem to_bytes_deterministic_witness :
    IntegerList.to_bytes ⟨efBuild [1, 2, 3]⟩ = IntegerList.to_bytes ⟨efBuild [1, 2, 3]⟩ :=
  to_bytes_deterministic.2 [1, 2, 3] ⟨efBuild [1, 2, 3]⟩ ⟨efBuild [1, 2, 3]⟩ rfl rfl

/-- C10: intersection is commutative for all IntegerLists (the lockstep merge
treats duplicated values one matched pair at a time, identically from either
side). -/
theorem intersection_comm (a b : IntegerList) :
    a.intersection b = b.intersection a := by
  unfold IntegerList.intersection
  rw [intersectMerge_comm]

set_option maxRecDepth 40000 in
/-- C2: intersection is the dual-pointer lockstep merge of the two decoded
sequences (empty merge output giving none, otherwise the rebuilt merge
output), together with the four worked examples from the specification. -/
theorem intersection_lockstep :
    (∀ (S T : List Nat) (ea eb : EliasFano),
        EliasFano.from_ints S = some ea → EliasFano.from_ints T = some eb →
        IntegerList.intersection ⟨ea⟩ ⟨eb⟩ =
          if intersectMerge S T = [] then none
          else (EliasFano.from_ints (intersectMerge S T)).map IntegerList.mk) ∧
      interEx [1, 2, 3] [4, 5, 6] = some none ∧
      interEx [1] [1] = some (IntegerList.new_pre_sorted [1]) ∧
      interEx [2, 3, 4] [3, 4, 5] = some (IntegerList.new_pre_sorted [3, 4]) ∧
      interEx ((List.range 50).map fun i => 2 * (i + 1)) (List.range 101) =
        some (IntegerList.new_pre_sorted ((List.range 50).map fun i => 2 * (i + 1))) := by
  refine ⟨?_, by decide, by decide, by decide, by decide⟩
  intro S T ea eb hS hT
  have hSa : ea.iterAll = S := from_ints_iterAll S ea hS
  have hTb : eb.iterAll = T := from_ints_iterAll T eb hT
  rw [intersection_eq]
  show (if intersectMerge ea.iterAll eb.iterAll = [] then none
        else IntegerList.new_pre_sorted (intersectMerge ea.iterAll eb.iterAll)) = _
  rw [hSa, hTb]
  rfl

/-- Witness for C2 (general conjunct) at [1] and [1]. -/
theorem intersection_lockstep_witness :
    EliasFano.from_ints [1] = some (efBuild [1]) ∧
      IntegerList.intersection ⟨efBuild [1]⟩ ⟨efBuild [1]⟩ =
        (if intersectMerge [1] [1] = [] then none
         else (EliasFano.from_ints (intersectMerge [1] [1])).map IntegerList.mk) :=
  ⟨by decide, intersection_lockstep.1 [1] [1] (efBuild [1]) (efBuild [1]) (by decide) (by decide)⟩

/-- C4: intersection returns none exactly when the lockstep merge emits
nothing; when the merge output is non-empty it returns some list decoding to
exactly that output (never an error and never an empty list). -/
theorem intersection_none_iff (S T : List Nat) (ea eb : EliasFano)
    (hS : EliasFano.from_ints S = some ea) (hT : EliasFano.from_ints T = some eb) :
    (IntegerList.intersection ⟨ea⟩ ⟨eb⟩ = none ↔ intersectMerge S T = []) ∧
    (intersectMerge S T ≠ [] →
      ∃ l : IntegerList, IntegerList.intersection ⟨ea⟩ ⟨eb⟩ = some l ∧
        l.ef.iterAll = intersectMerge S T ∧ l.ef.iterAll ≠ []) := by
  have hSa : ea.iterAll = S := from_ints_iterAll S ea hS
  have hTb : eb.iterAll = T := from_ints_iterAll T eb hT
  have hsortS : S.Sorted (· ≤ ·) := by
    obtain ⟨-, hs, -⟩ := (from_ints_eq_some S ea).1 hS
    exact (isNonDecreasing_iff_sorted S).1 hs
  have hkey : IntegerList.intersection ⟨ea⟩ ⟨eb⟩ =
      if intersectMerge S T = [] then none
      else IntegerList.new_pre_sorted (intersectMerge S T) := by
    rw [intersection_eq]
    show (if intersectMerge ea.iterAll eb.iterAll = [] then none
          else IntegerList.new_pre_sorted (intersectMerge ea.iterAll eb.iterAll)) = _
    rw [hSa, hTb]
  by_cases hr : intersectMerge S T = []
  · rw [hkey, if_pos hr]
    exact ⟨⟨fun _ => hr, fun _ => rfl⟩, fun hc => absurd hr hc⟩
  · rw [hkey, if_neg hr]
    have hsorted := sorted_intersectMerge S T hsortS
    have hfi : EliasFano.from_ints (intersectMerge S T) =
        some (efBuild (intersectMerge S T)) :=
      (from_ints_eq_some _ _).2 ⟨hr, (isNonDecreasing_iff_sorted _).2 hsorted, rfl⟩
    constructor
    · constructor
      · intro h
        rw [IntegerList.new_pre_sorted, hfi] at h
        cases h
      · intro h
        exact absurd h hr
    · intro _
      refine ⟨⟨efBuild (intersectMerge S T)⟩, ?_, ?_, ?_⟩
      · rw [IntegerList.new_pre_sorted, hfi]
        rfl
      · exact efBuild_iterAll _ hsorted
      · rw [efBuild_iterAll _ hsorted]
        exact hr

/-- Witness for C4 at [1] and [1]. -/
theorem intersection_none_iff_witness :
    (IntegerList.intersection ⟨efBuild [1]⟩ ⟨efBuild [1]⟩ = none ↔
      intersectMerge [1] [1] = []) ∧
    (intersectMerge [1] [1] ≠ [] →
      ∃ l : IntegerList, IntegerList.intersection ⟨efBuild [1]⟩ ⟨efBuild [1]⟩ = some l ∧
        l.ef.iterAll = intersectMerge [1] [1] ∧ l.ef.iterAll ≠ []) :=
  intersection_none_iff [1] [1] (efBuild [1]) (efBuild [1]) (by decide) (by decide)

/-- C7: the structured-encoding adapter round-trips every valid list (the
logical form is the decoded ascending sequence), and its decoding applies
exactly the validation of new. -/
theorem serde_roundtrip (S : List Nat) (ef : EliasFano)
    (h : EliasFano.from_ints S = some ef) :
    IntegerList.serde_deserialize (IntegerList.serde_serialize ⟨ef⟩) = some ⟨ef⟩ ∧
    ∀ l : List Nat,
      IntegerList.serde_deserialize l = none ↔
        IntegerList.new l = .error .InvalidInput := by
  constructor
  · have hser : IntegerList.serde_serialize ⟨ef⟩ = S := by
      show ef.iter 0 = S
      rw [iter_zero]
      exact from_ints_iterAll S ef h
    rw [hser]
    simp [IntegerList.serde_deserialize, IntegerList.new, h]
  · intro l
    rw [IntegerList.serde_deserialize, IntegerList.new]
    cases EliasFano.from_ints l <;> simp

/-- Witness for C7 at the concrete sequence [1, 2, 3]. -/
theorem serde_roundtrip_witness :
    IntegerList.serde_deserialize (IntegerList.serde_serialize ⟨efBuild [1, 2, 3]⟩) =
      some ⟨efBuild [1, 2, 3]⟩ :=
  (serde_roundtrip [1, 2, 3] (efBuild [1, 2, 3]) (by decide)).1

/-! ### Lemmas for the byte serialization round trip -/

lemma natToLEBytes_length (k v : Nat) : (natToLEBytes k v).length = k := by
  induction k generalizing v with
  | zero => rfl
  | succ k ih => simp [natToLEBytes, ih]

lemma leBytesToNat_natToLEBytes (k v : Nat) :
    leBytesToNat (natToLEBytes k v) = v % 256 ^ k := by
  induction k generalizing v with
  | zero => simp [natToLEBytes, leBytesToNat, Nat.mod_one]
  | succ k ih =>
    rw [natToLEBytes, leBytesToNat, ih]
    rw [Nat.pow_succ', Nat.mod_mul]

lemma natToBits_length (k n : Nat) : (natToBits k n).length = k := by
  induction k generalizing n with
  | zero => rfl
  | succ k ih => simp [natToBits, ih]

lemma bitsVal_natToBits (k n : Nat) : bitsVal (natToBits k n) = n % 2 ^ k := by
  induction k generalizing n with
  | zero => simp [natToBits, bitsVal, Nat.mod_one]
  | succ k ih =>
    rw [natToBits, bitsVal, ih]
    have h2 : (cond (decide (n % 2 = 1)) 1 0 : Nat) = n % 2 := by
      rcases Nat.mod_two_eq_zero_or_one n with h | h <;> simp [h]
    rw [h2, Nat.pow_succ', Nat.mod_mul]

lemma natToBits_bitsVal (bs : List Bool) (k : Nat) (h : bs.length ≤ k) :
    natToBits k (bitsVal bs) = bs ++ List.replicate (k - bs.length) false := by
  induction bs generalizing k with
  | nil =>
    simp only [bitsVal, List.nil_append, List.length_nil, Nat.sub_zero]
    clear h
    induction k with
    | zero => rfl
    | succ k ihk => rw [natToBits, List.replicate_succ, Nat.zero_div, ihk]; rfl
  | cons b t ih =>
    cases k with
    | zero => simp at h
    | succ k =>
      rw [natToBits]
      have hval : bitsVal (b :: t) = cond b 1 0 + 2 * bitsVal t := rfl
      have hmod : (cond b 1 0 + 2 * bitsVal t) % 2 = cond b 1 0 := by
        cases b <;> simp [Nat.add_mul_mod_self_left] <;> omega
      have hdiv : (cond b 1 0 + 2 * bitsVal t) / 2 = bitsVal t := by
        cases b <;> simp [Nat.add_mul_div_left] <;> omega
      rw [hval, hmod, hdiv]
      have hd : (decide (cond b 1 0 = 1)) = b := by cases b <;> rfl
      rw [hd, ih k (by simpa using h)]
      simp [List.length_cons, Nat.succ_sub_succ]

lemma bitsToBytes_length (bs : List Bool) :
    (bitsToBytes bs).length = (bs.length + 7) / 8 := by
  simp [bitsToBytes]

lemma bitsToBytes_chunk (bs : List Bool) (h : bs ≠ []) :
    bitsToBytes bs = bitsVal (bs.take 8) :: bitsToBytes (bs.drop 8) := by
  unfold bitsToBytes
  have hpos : 1 ≤ bs.length := List.length_pos.2 h
  have hm : (bs.length + 7) / 8 = ((bs.drop 8).length + 7) / 8 + 1 := by
    rw [List.length_drop]
    omega
  rw [hm, List.range_succ_eq_map, List.map_cons]
  simp only [Nat.mul_zero, List.drop_zero, List.map_map]
  congr 1
  apply List.map_congr_left
  intro i _
  simp only [Function.comp_apply, Nat.succ_eq_add_one]
  rw [List.drop_drop, (show 8 * (i + 1) = 8 + 8 * i by ring)]

lemma bytesToBits_append (b1 b2 : List Nat) :
    bytesToBits (b1 ++ b2) = bytesToBits b1 ++ bytesToBits b2 := by
  simp [bytesToBits]

lemma bytesToBits_cons (x : Nat) (rest : List Nat) :
    bytesToBits (x :: rest) = byteToBits x ++ bytesToBits rest := by
  simp [bytesToBits]

lemma bitsToBytes_nil : bitsToBytes [] = [] := by
  simp [bitsToBytes]

lemma bytesToBits_bitsToBytes_aux (n : Nat) :
    ∀ bs : List Bool, bs.length ≤ n →
      bytesToBits (bitsToBytes bs) =
        bs ++ List.replicate ((bs.length + 7) / 8 * 8 - bs.length) false := by
  induction n with
  | zero =>
    intro bs h
    have : bs = [] := List.eq_nil_of_length_eq_zero (by omega)
    subst this
    simp [bitsToBytes, bytesToBits]
  | succ n ih =>
    intro bs hlen
    by_cases hnil : bs = []
    · subst hnil
      simp [bitsToBytes, bytesToBits]
    · have hpos : 1 ≤ bs.length := List.length_pos.2 hnil
      by_cases h8 : bs.length ≤ 8
      · have hm : (bs.length + 7) / 8 = 1 := by omega
        have htake : bs.take 8 = bs := List.take_of_length_le h8
        have hdrop : bs.drop 8 = [] := List.drop_eq_nil_of_le h8
        rw [bitsToBytes_chunk bs hnil, htake, hdrop, bitsToBytes_nil, bytesToBits_cons]
        have hb : bytesToBits [] = [] := rfl
        rw [hb, List.append_nil, byteToBits, natToBits_bitsVal bs 8 h8, hm, Nat.one_mul]
      · have hT8 : (bs.take 8).length = 8 := by
          rw [List.length_take]
          omega
        rw [bitsToBytes_chunk bs hnil, bytesToBits_cons]
        have hhead : byteToBits (bitsVal (bs.take 8)) = bs.take 8 := by
          rw [byteToBits, natToBits_bitsVal _ 8 (Nat.le_of_eq hT8), hT8]
          simp
        rw [hhead, ih (bs.drop 8) (by rw [List.length_drop]; omega),
          ← List.append_assoc, List.take_append_drop, List.length_drop]
        congr 2
        omega

lemma take_bytesToBits (bs : List Bool) :
    (bytesToBits (bitsToBytes bs)).take bs.length = bs := by
  rw [bytesToBits_bitsToBytes_aux bs.length bs (Nat.le_refl _)]
  exact List.take_left' rfl

lemma sum_map_const_nat (L : List Nat) (c : Nat) :
    (L.map fun _ => c).sum = L.length * c := by
  induction L with
  | nil => simp
  | cons a t ih => simp [ih, Nat.succ_mul, Nat.add_comm]

lemma lowBits_length (ef : EliasFano) :
    ef.lowBits.length = ef.low_array.length * ef.low_width := by
  rw [EliasFano.lowBits, List.length_flatten, List.map_map]
  calc ((ef.low_array.map fun x => ((natToBits ef.low_width x).length)).sum)
      = (ef.low_array.map fun _ => ef.low_width).sum := by
        apply congrArg List.sum
        apply List.map_congr_left
        intro x _
        exact natToBits_length _ _
    _ = ef.low_array.length * ef.low_width := sum_map_const_nat _ _

lemma flatten_chunk (w : Nat) :
    ∀ L : List (List Bool), (∀ c ∈ L, c.length = w) →
      ∀ i, i < L.length → ((L.flatten.drop (i * w)).take w) = L.getD i [] := by
  intro L
  induction L with
  | nil =>
    intro _ i hi
    simp at hi
  | cons c L ih =>
    intro hw i hi
    have hcw : c.length = w := hw c (List.mem_cons_self _ _)
    cases i with
    | zero =>
      rw [List.flatten_cons, Nat.zero_mul, List.drop_zero, List.getD_cons_zero]
      exact List.take_left' hcw
    | succ i =>
      rw [List.flatten_cons, List.getD_cons_succ]
      have hidx : (i + 1) * w = c.length + i * w := by rw [hcw]; ring
      rw [hidx, ← List.drop_drop, List.drop_left]
      exact ih (fun d hd => hw d (List.mem_cons_of_mem _ hd)) i (by simpa using hi)

lemma getLastD_mem (S : List Nat) (d : Nat) (h : S ≠ []) : S.getLastD d ∈ S := by
  induction S generalizing d with
  | nil => exact absurd rfl h
  | cons a t ih =>
    rw [List.getLastD_cons]
    cases t with
    | nil => simp
    | cons b t2 => exact List.mem_cons_of_mem a (ih a (List.cons_ne_nil b t2))

lemma le_getLastD :
    ∀ (t : List Nat) (d e : Nat), d ≤ e → (∀ x ∈ t, d ≤ x) → d ≤ t.getLastD e := by
  intro t
  induction t with
  | nil => intro d e h _; exact h
  | cons a t ih =>
    intro d e h hall
    rw [List.getLastD_cons]
    exact ih d a (hall a (List.mem_cons_self _ _)) fun x hx => hall x (List.mem_cons_of_mem _ hx)

lemma getLastD_map (f : Nat → Nat) (S : List Nat) (d : Nat) :
    (S.map f).getLastD (f d) = f (S.getLastD d) := by
  induction S generalizing d with
  | nil => rfl
  | cons a t ih => rw [List.map_cons, List.getLastD_cons, List.getLastD_cons, ih a]

lemma unaryEncode_length (hs : List Nat) :
    ∀ prev : Nat, hs.Sorted (· ≤ ·) → (∀ x ∈ hs, prev ≤ x) →
      (unaryEncode prev hs).length = (hs.getLastD prev - prev) + hs.length := by
  induction hs with
  | nil => intro prev _ _; simp [unaryEncode]
  | cons h t ih =>
    intro prev hsort hge
    rw [unaryEncode]
    simp only [List.length_append, List.length_replicate, List.length_cons]
    rw [ih h hsort.of_cons (List.rel_of_sorted_cons hsort), List.getLastD_cons]
    have h1 : prev ≤ h := hge h (List.mem_cons_self _ _)
    have h2 : h ≤ t.getLastD h :=
      le_getLastD t h h (Nat.le_refl h) (List.rel_of_sorted_cons hsort)
    omega

lemma log2Fuel_le (f : Nat) : ∀ m, m ≤ f → log2Fuel f m ≤ m := by
  induction f with
  | zero =>
    intro m _
    exact Nat.zero_le m
  | succ f ih =>
    intro m hm
    rw [log2Fuel]
    by_cases h2 : 2 ≤ m
    · rw [if_pos h2]
      have := ih (m / 2) (by omega)
      omega
    · rw [if_neg h2]
      omega

lemma log2floor_le_self (m : Nat) : log2floor m ≤ m := log2Fuel_le m m (Nat.le_refl m)

lemma pow_log2Fuel_le (f : Nat) : ∀ m, 1 ≤ m → m ≤ f → 2 ^ log2Fuel f m ≤ m := by
  induction f with
  | zero => intro m h1 h2; omega
  | succ f ih =>
    intro m h1 hm
    rw [log2Fuel]
    by_cases h2 : 2 ≤ m
    · rw [if_pos h2]
      have hrec := ih (m / 2) (by omega) (by omega)
      calc 2 ^ (log2Fuel f (m / 2) + 1) = 2 * 2 ^ log2Fuel f (m / 2) := by ring
        _ ≤ 2 * (m / 2) := by omega
        _ ≤ m := by omega
    · rw [if_neg h2]
      simpa using h1

lemma pow_log2floor_le (m : Nat) (h : 1 ≤ m) : 2 ^ log2floor m ≤ m :=
  pow_log2Fuel_le m m h (Nat.le_refl m)

lemma count_mul_width_le (S : List Nat) :
    S.length * efLowWidth S ≤ S.getLastD 0 := by
  by_cases hlw : efLowWidth S = 0
  · rw [hlw, Nat.mul_zero]
    exact Nat.zero_le _
  · have hq : 1 ≤ S.getLastD 0 / S.length := by
      by_contra hq
      push_neg at hq
      have h0 : S.getLastD 0 / S.length = 0 := Nat.lt_one_iff.1 hq
      exact hlw (by rw [efLowWidth, h0]; rfl)
    have hp : 2 ^ efLowWidth S ≤ S.getLastD 0 / S.length := pow_log2floor_le _ hq
    have hle : efLowWidth S ≤ 2 ^ efLowWidth S := Nat.le_of_lt (Nat.lt_two_pow _)
    calc S.length * efLowWidth S
        ≤ S.length * 2 ^ efLowWidth S := Nat.mul_le_mul_left _ hle
      _ ≤ S.length * (S.getLastD 0 / S.length) := Nat.mul_le_mul_left _ hp
      _ = (S.getLastD 0 / S.length) * S.length := Nat.mul_comm _ _
      _ ≤ S.getLastD 0 := Nat.div_mul_le_self _ _

lemma reconstruct_low (ef : EliasFano) (hcnt : ef.count = ef.low_array.length)
    (hlt : ∀ x ∈ ef.low_array, x < 2 ^ ef.low_width) :
    ((List.range ef.count).map fun i =>
        bitsVal ((ef.lowBits.drop (i * ef.low_width)).take ef.low_width)) = ef.low_array := by
  apply List.ext_getElem
  · simp [hcnt]
  · intro i h1 h2
    simp only [List.getElem_map, List.getElem_range]
    have hi : i < ef.low_array.length := h2
    rw [EliasFano.lowBits,
      flatten_chunk ef.low_width (ef.low_array.map (natToBits ef.low_width))
        (by
          intro c hc
          obtain ⟨x, hx, rfl⟩ := List.mem_map.1 hc
          exact natToBits_length _ _)
        i (by simpa using hi)]
    rw [List.getD_eq_getElem _ _ (by simpa using hi), List.getElem_map, bitsVal_natToBits]
    exact Nat.mod_eq_of_lt (hlt _ (List.getElem_mem _))

lemma parse_fields (c m w : Nat) (lowB highB data : List Nat)
    (hdata : data = natToLEBytes 8 c ++ (natToLEBytes 8 m ++ (natToLEBytes 8 w ++
      (natToLEBytes 8 lowB.length ++ (natToLEBytes 8 highB.length ++ (lowB ++ highB))))))
    (hc : c < 2 ^ 64) (hm : m < 2 ^ 64) (hw : w < 2 ^ 64)
    (hll : lowB.length < 2 ^ 64) (hhl : highB.length < 2 ^ 64) :
    leBytesToNat (data.take 8) = c ∧
    leBytesToNat ((data.drop 8).take 8) = m ∧
    leBytesToNat ((data.drop 16).take 8) = w ∧
    leBytesToNat ((data.drop 24).take 8) = lowB.length ∧
    leBytesToNat ((data.drop 32).take 8) = highB.length ∧
    data.drop 40 = lowB ++ highB ∧
    data.length = 40 + (lowB.length + highB.length) := by
  subst hdata
  have t8 : ∀ (v : Nat) (rest : List Nat),
      (natToLEBytes 8 v ++ rest).take 8 = natToLEBytes 8 v :=
    fun v rest => List.take_left' (natToLEBytes_length 8 v)
  have e8 : ∀ (v : Nat) (rest : List Nat), (natToLEBytes 8 v ++ rest).drop 8 = rest :=
    fun v rest => List.drop_left' (natToLEBytes_length 8 v)
  have val8 : ∀ v : Nat, v < 2 ^ 64 → leBytesToNat (natToLEBytes 8 v) = v := by
    intro v hv
    rw [leBytesToNat_natToLEBytes, (show (256 : Nat) ^ 8 = 2 ^ 64 by norm_num)]
    exact Nat.mod_eq_of_lt hv
  have hd8 := e8 c (natToLEBytes 8 m ++ (natToLEBytes 8 w ++
    (natToLEBytes 8 lowB.length ++ (natToLEBytes 8 highB.length ++ (lowB ++ highB)))))
  have hd16 : (natToLEBytes 8 c ++ (natToLEBytes 8 m ++ (natToLEBytes 8 w ++
      (natToLEBytes 8 lowB.length ++ (natToLEBytes 8 highB.length ++ (lowB ++ highB)))))).drop 16
      = natToLEBytes 8 w ++
        (natToLEBytes 8 lowB.length ++ (natToLEBytes 8 highB.length ++ (lowB ++ highB))) := by
    rw [(show (16 : Nat) = 8 + 8 by norm_num), ← List.drop_drop, hd8, e8]
  have hd24 : (natToLEBytes 8 c ++ (natToLEBytes 8 m ++ (natToLEBytes 8 w ++
      (natToLEBytes 8 lowB.length ++ (natToLEBytes 8 highB.length ++ (lowB ++ highB)))))).drop 24
      = natToLEBytes 8 lowB.length ++ (natToLEBytes 8 highB.length ++ (lowB ++ highB)) := by
    rw [(show (24 : Nat) = 16 + 8 by norm_num), ← List.drop_drop, hd16, e8]
  have hd32 : (natToLEBytes 8 c ++ (natToLEBytes 8 m ++ (natToLEBytes 8 w ++
      (natToLEBytes 8 lowB.length ++ (natToLEBytes 8 highB.length ++ (lowB ++ highB)))))).drop 32
      = natToLEBytes 8 highB.length ++ (lowB ++ highB) := by
    rw [(show (32 : Nat) = 24 + 8 by norm_num), ← List.drop_drop, hd24, e8]
  have hd40 : (natToLEBytes 8 c ++ (natToLEBytes 8 m ++ (natToLEBytes 8 w ++
      (natToLEBytes 8 lowB.length ++ (natToLEBytes 8 highB.length ++ (lowB ++ highB)))))).drop 40
      = lowB ++ highB := by
    rw [(show (40 : Nat) = 32 + 8 by norm_num), ← List.drop_drop, hd32, e8]
  refine ⟨?_, ?_, ?_, ?_, ?_, hd40, ?_⟩
  · rw [t8, val8 c hc]
  · rw [hd8, t8, val8 m hm]
  · rw [hd16, t8, val8 w hw]
  · rw [hd24, t8, val8 _ hll]
  · rw [hd32, t8, val8 _ hhl]
  · simp only [List.length_append, natToLEBytes_length]
    omega

lemma deserialize_serialize (S : List Nat) (hne : S ≠ [])
    (hsort : S.Sorted (· ≤ ·))
    (hvals : ∀ v ∈ S, v < 2 ^ 64) (hlen : S.length < 2 ^ 64) :
    EliasFano.deserializeFrom (efBuild S).serializeInto = some (efBuild S) := by
  have hnpos : 0 < S.length := List.length_pos.2 hne
  have hU : S.getLastD 0 < 2 ^ 64 := hvals _ (getLastD_mem S 0 hne)
  have hlw : efLowWidth S < 2 ^ 64 :=
    lt_of_le_of_lt (le_trans (log2floor_le_self _) (Nat.div_le_self _ _)) hU
  have hmul : S.length * efLowWidth S < 2 ^ 64 :=
    lt_of_le_of_lt (count_mul_width_le S) hU
  have hlowbits : (efBuild S).lowBits.length = S.length * efLowWidth S := by
    rw [lowBits_length]
    simp [efBuild]
  have hsortedHigh : (S.map fun v => v / 2 ^ efLowWidth S).Sorted (· ≤ ·) :=
    List.Pairwise.map _ (fun a b hab => Nat.div_le_div_right hab) hsort
  have hgetlast : (S.map fun v => v / 2 ^ efLowWidth S).getLastD 0
      = S.getLastD 0 / 2 ^ efLowWidth S := by
    have h := getLastD_map (fun v => v / 2 ^ efLowWidth S) S 0
    simpa [Nat.zero_div] using h
  have hhighlen : (efBuild S).high_bits.length
      = S.length + S.getLastD 0 / 2 ^ efLowWidth S := by
    show (unaryEncode 0 (S.map fun v => v / 2 ^ efLowWidth S)).length = _
    rw [unaryEncode_length _ 0 hsortedHigh (fun x _ => Nat.zero_le x), hgetlast]
    simp only [List.length_map, Nat.sub_zero]
    omega
  have hll_lt : (bitsToBytes (efBuild S).lowBits).length < 2 ^ 64 := by
    rw [bitsToBytes_length, hlowbits]
    omega
  have hhl_lt : (bitsToBytes (efBuild S).high_bits).length < 2 ^ 64 := by
    rw [bitsToBytes_length, hhighlen]
    have : S.getLastD 0 / 2 ^ efLowWidth S ≤ S.getLastD 0 := Nat.div_le_self _ _
    omega
  have hcount : (efBuild S).count = S.length := rfl
  have hmaxv : (efBuild S).max_value = S.getLastD 0 := rfl
  have hwidth : (efBuild S).low_width = efLowWidth S := rfl
  have hdata : (efBuild S).serializeInto
      = natToLEBytes 8 S.length ++ (natToLEBytes 8 (S.getLastD 0) ++
        (natToLEBytes 8 (efLowWidth S) ++
          (natToLEBytes 8 (bitsToBytes (efBuild S).lowBits).length ++
            (natToLEBytes 8 (bitsToBytes (efBuild S).high_bits).length ++
              (bitsToBytes (efBuild S).lowBits ++ bitsToBytes (efBuild S).high_bits))))) := by
    simp only [EliasFano.serializeInto, hcount, hmaxv, hwidth, List.append_assoc]
  obtain ⟨p1, p2, p3, p4, p5, p6, p7⟩ :=
    parse_fields S.length (S.getLastD 0) (efLowWidth S)
      (bitsToBytes (efBuild S).lowBits) (bitsToBytes (efBuild S).high_bits)
      (efBuild S).serializeInto hdata hlen hU hlw hll_lt hhl_lt
  have hll_eq : (bitsToBytes (efBuild S).lowBits).length
      = (S.length * efLowWidth S + 7) / 8 := by
    rw [bitsToBytes_length, hlowbits]
  have hhl_eq : (bitsToBytes (efBuild S).high_bits).length
      = (S.length + S.getLastD 0 / 2 ^ efLowWidth S + 7) / 8 := by
    rw [bitsToBytes_length, hhighlen]
  have hlowpay : ((efBuild S).serializeInto.drop 40).take
      (bitsToBytes (efBuild S).lowBits).length = bitsToBytes (efBuild S).lowBits := by
    rw [p6]
    exact List.take_left' rfl
  have hhighpay : ((efBuild S).serializeInto.drop
      (40 + (bitsToBytes (efBuild S).lowBits).length)).take
      (bitsToBytes (efBuild S).high_bits).length = bitsToBytes (efBuild S).high_bits := by
    rw [← List.drop_drop, p6, List.drop_left, List.take_length]
  have hlowrec : (bytesToBits (bitsToBytes (efBuild S).lowBits)).take
      (S.length * efLowWidth S) = (efBuild S).lowBits := by
    rw [← hlowbits]
    exact take_bytesToBits _
  have hhighrec : (bytesToBits (bitsToBytes (efBuild S).high_bits)).take
      (S.length + S.getLastD 0 / 2 ^ efLowWidth S) = (efBuild S).high_bits := by
    rw [← hhighlen]
    exact take_bytesToBits _
  have hlowarr : ((List.range S.length).map fun i =>
      bitsVal (((efBuild S).lowBits.drop (i * efLowWidth S)).take (efLowWidth S)))
      = (efBuild S).low_array := by
    exact reconstruct_low (efBuild S) (by simp [efBuild])
      (by
        intro x hx
        obtain ⟨v, hv, rfl⟩ := List.mem_map.1 hx
        exact Nat.mod_lt v (pow_pos (by norm_num) _))
  simp only [EliasFano.deserializeFrom]
  rw [p1, p2, p3, p4, p5, p7]
  rw [if_neg (by omega : ¬ (40 + ((bitsToBytes (efBuild S).lowBits).length +
    (bitsToBytes (efBuild S).high_bits).length) < 40))]
  rw [if_neg (by omega : ¬ S.length = 0)]
  rw [if_neg (show ¬ ((bitsToBytes (efBuild S).lowBits).length ≠
    (S.length * efLowWidth S + 7) / 8) from fun hcon => hcon hll_eq)]
  rw [if_neg (show ¬ ((bitsToBytes (efBuild S).high_bits).length ≠
    (S.length + S.getLastD 0 / 2 ^ efLowWidth S + 7) / 8) from fun hcon => hcon hhl_eq)]
  rw [if_neg (by omega : ¬ (40 + ((bitsToBytes (efBuild S).lowBits).length +
    (bitsToBytes (efBuild S).high_bits).length) < 40 +
    (bitsToBytes (efBuild S).lowBits).length + (bitsToBytes (efBuild S).high_bits).length))]
  rw [hlowpay, hhighpay, hlowrec, hhighrec, hlowarr]
  rfl

set_option maxRecDepth 40000 in
/-- C1: byte round trip: for every valid IntegerList (built from a non-empty
non-decreasing sequence of 64-bit values), from_bytes (to_bytes x) = Ok x, and
the decoded list carries exactly the original sequence. -/
theorem bytes_roundtrip (S : List Nat) (ef : EliasFano)
    (h : EliasFano.from_ints S = some ef)
    (hvals : ∀ v ∈ S, v < 2 ^ 64) (hlen : S.length < 2 ^ 64) :
    IntegerList.from_bytes (IntegerList.to_bytes ⟨ef⟩) = .ok ⟨ef⟩ ∧
    ∃ l : IntegerList, IntegerList.from_bytes (IntegerList.to_bytes ⟨ef⟩) = .ok l ∧
      l.ef.iterAll = S := by
  have hiter : ef.iterAll = S := from_ints_iterAll S ef h
  obtain ⟨hne, hsortb, rfl⟩ := (from_ints_eq_some S ef).1 h
  have hd : EliasFano.deserializeFrom (efBuild S).serializeInto = some (efBuild S) :=
    deserialize_serialize S hne ((isNonDecreasing_iff_sorted S).1 hsortb) hvals hlen
  constructor
  · simp [IntegerList.from_bytes, IntegerList.to_bytes, hd]
  · exact ⟨⟨efBuild S⟩, by simp [IntegerList.from_bytes, IntegerList.to_bytes, hd], hiter⟩

set_option maxRecDepth 40000 in
/-- Witness for C1 at the concrete sequence [1, 2, 3]. -/
theorem bytes_roundtrip_witness :
    EliasFano.from_ints [1, 2, 3] = some (efBuild [1, 2, 3]) ∧
      IntegerList.from_bytes (IntegerList.to_bytes ⟨efBuild [1, 2, 3]⟩) =
        .ok ⟨efBuild [1, 2, 3]⟩ :=
  ⟨by decide,
   (bytes_roundtrip [1, 2, 3] (efBuild [1, 2, 3]) (by decide) (by decide) (by decide)).1⟩
